import Mathlib

/-!
Verification of the rule-based menu parser
(`src/app/services/menuParser.ts`, class `MenuParser`).

The parser is embedded shallowly: every JavaScript string operation the
parser uses (literal `String.replace`, `split('\n')`, `trim()`, and the
specific regular expressions of the source, with JS matching semantics:
leftmost match, greedy quantifiers with backtracking, `\s` = JS
whitespace, `/i` = ASCII case folding) is modelled as an executable Lean
function on `List Char`, and the parser's methods are translated on top
of them, keeping the source's names.
-/

namespace MenuParser

/-! ## JS string primitives -/

/-- JS whitespace (the `\s` class and the set removed by
`String.prototype.trim`), by code point: space, tab, LF, VT, FF, CR,
NBSP (U+00A0), U+1680, U+2000..U+200A, U+2028, U+2029, U+202F, U+205F,
U+3000 and U+FEFF. -/
def jsSpace (c : Char) : Bool :=
  let n := c.toNat
  n = 0x20 || n = 0x09 || n = 0x0A || n = 0x0B || n = 0x0C || n = 0x0D ||
  n = 0xA0 || n = 0x1680 || (0x2000 ≤ n && n ≤ 0x200A) ||
  n = 0x2028 || n = 0x2029 || n = 0x202F || n = 0x205F ||
  n = 0x3000 || n = 0xFEFF

/-- JS line terminators (excluded by the regex `.` metacharacter). -/
def isLineTerm (c : Char) : Bool :=
  c.toNat = 0x0A || c.toNat = 0x0D || c.toNat = 0x2028 || c.toNat = 0x2029

/-- `String.prototype.trim`: strip JS whitespace at both ends. -/
def trimL (cs : List Char) : List Char :=
  ((cs.dropWhile jsSpace).reverse.dropWhile jsSpace).reverse

def jsTrim (s : String) : String := ⟨trimL s.toList⟩

/-- ASCII-only upper-casing, the canonicalisation JS applies to both
operands of a case-insensitive (`/i`) regex comparison (non-ASCII
characters are never folded onto ASCII ones without the `u` flag, and no
pattern in this parser's `/i` regexes contains a non-ASCII letter). -/
def asciiUpper (c : Char) : Char :=
  if 0x61 ≤ c.toNat ∧ c.toNat ≤ 0x7A then Char.ofNat (c.toNat - 32) else c

/-- Character comparison under the `/i` flag. -/
def foldEq (a b : Char) : Bool := asciiUpper a = asciiUpper b

/-- `String.prototype.toLowerCase`, restricted to the code points that can
interact with the parser's (ASCII + `é`) vocabulary tables: ASCII
letters, the Latin-1 uppercase letters `À`–`Þ` (excluding `×`), and the
Kelvin sign; every other character is left unchanged, as none of them
lower-cases onto a character occurring in the tables. -/
def jsToLower (c : Char) : Char :=
  if 'A' ≤ c ∧ c ≤ 'Z' then Char.ofNat (c.toNat + 32)
  else if 'À' ≤ c ∧ c ≤ 'Þ' ∧ c ≠ '×' then Char.ofNat (c.toNat + 32)
  else if c = 'K' then 'k'
  else c

def toLowerL (cs : List Char) : List Char := cs.map jsToLower

/-- The `\d` class: ASCII decimal digits. -/
def decDigit (c : Char) : Bool := 0x30 ≤ c.toNat && c.toNat ≤ 0x39

/-- The `[A-Z]` class. -/
def isUpperAZ (c : Char) : Bool := 0x41 ≤ c.toNat && c.toNat ≤ 0x5A

/-- Exact prefix test (case sensitive). -/
def matchLit : List Char → List Char → Option (List Char)
  | [], cs => some cs
  | _, [] => none
  | p :: ps, c :: cs => if p = c then matchLit ps cs else none

/-- Case-insensitive (`/i`) prefix test; returns the remainder. -/
def matchLitCI : List Char → List Char → Option (List Char)
  | [], cs => some cs
  | _, [] => none
  | p :: ps, c :: cs => if foldEq p c then matchLitCI ps cs else none

/-- `/pat/i.test(s)` for a literal pattern `pat`: case-insensitive
substring containment. -/
def containsCI (pat : List Char) : List Char → Bool
  | [] => (matchLitCI pat []).isSome
  | c :: cs => (matchLitCI pat (c :: cs)).isSome || containsCI pat cs

/-- Leftmost index at which the literal pattern occurs (case-insensitive),
as `String.prototype.match(...).index` would report it. -/
def findCI (pat : List Char) : List Char → Option Nat
  | [] => if (matchLitCI pat []).isSome then some 0 else none
  | c :: cs =>
    if (matchLitCI pat (c :: cs)).isSome then some 0
    else (findCI pat cs).map (· + 1)

/-- `String.prototype.split('\n')`. -/
def splitNlL (cs : List Char) : List (List Char) :=
  match cs with
  | [] => [[]]
  | c :: cs' =>
    let rest := splitNlL cs'
    if c = '\n' then [] :: rest
    else
      match rest with
      | r :: rs => (c :: r) :: rs
      | [] => [[c]]

def splitNl (s : String) : List String := (splitNlL s.toList).map (⟨·⟩)

/-- `Array.prototype.join('\n')` / `String.intercalate "\n"`. -/
def joinNlL : List (List Char) → List Char
  | [] => []
  | [b] => b
  | b :: bs => b ++ '\n' :: joinNlL bs

def joinNl (bs : List String) : String := ⟨joinNlL (bs.map String.toList)⟩

/-- Global literal `String.prototype.replace(/lit/g, rep)`: scan left to
right, replace each non-overlapping leftmost occurrence, never rescanning
the replacement.  `fuel` is initialised to the string length, which
bounds the number of steps since every occurrence of a non-empty `lit`
consumes at least one character. -/
def replaceLitAux (lit rep : List Char) : Nat → List Char → List Char
  | _, [] => []
  | 0, cs => cs
  | fuel + 1, c :: cs =>
    match matchLit lit (c :: cs) with
    | some rest =>
      if lit.isEmpty then c :: replaceLitAux lit rep fuel cs
      else rep ++ replaceLitAux lit rep fuel rest
    | none => c :: replaceLitAux lit rep fuel cs

def replaceLitL (lit rep cs : List Char) : List Char :=
  replaceLitAux lit rep cs.length cs

def jsReplaceAll (lit rep s : String) : String :=
  ⟨replaceLitL lit.toList rep.toList s.toList⟩

/-! ## Data model (`Course`, `MenuDay`, `ParsedMenu`)

`ParsedMenu` is a numerically indexed object in the source; it is
modelled as an association list from day index to `MenuDay`, in
insertion order. -/

structure Course where
  id : Nat
  courseType : String
  foodItems : String
  deriving Repr, DecidableEq

structure MenuDay where
  id : Nat
  timeOfDay : String
  startTime : String
  endTime : String
  courses : List Course
  deriving Repr, DecidableEq

abbrev ParsedMenu := List (Nat × MenuDay)

/-! ## `cleanText` -/

/-- The ASCII apostrophe (U+0027), as a one-character string. -/
def apoS : String := ⟨[Char.ofNat 39]⟩

/-- `MenuParser.cleanText`.  The replacement chain exactly as written in
the source: note that the quote replacements replace a character by
itself (the source literals are plain ASCII `'` and `"` on both sides),
and that `/ -‏/g` and `/ - /g` are, outside a
character class, the literal three-character sequences
`U+2000 '-' U+200F` and `U+2028 '-' U+2029`. -/
def cleanText (text : String) : String :=
  jsTrim <|
  jsReplaceAll " - " "\n" <|
  jsReplaceAll " -‏" " " <|
  jsReplaceAll " " " " <|
  jsReplaceAll "…" "..." <|
  jsReplaceAll "–" "-" <|
  jsReplaceAll "—" "-" <|
  jsReplaceAll "\"" "\"" <|
  jsReplaceAll "\"" "\"" <|
  (fun s => jsReplaceAll apoS apoS s) <|
  jsReplaceAll "\r" "\n" <|
  jsReplaceAll "\r\n" "\n" <| text

/-! ## `extractDayBlocks` -/

/-- `MenuParser.DAY_PATTERNS`: `/Monday/i` … `/Sunday/i`. -/
def DAY_PATTERNS : List (List Char) :=
  ["Monday".toList, "Tuesday".toList, "Wednesday".toList, "Thursday".toList,
   "Friday".toList, "Saturday".toList, "Sunday".toList]

/-- `DAY_PATTERNS.some(pattern => pattern.test(trimmedLine))`. -/
def isDayHeader (line : String) : Bool :=
  DAY_PATTERNS.any fun p => containsCI p line.toList

/-- The accumulation loop of `MenuParser.extractDayBlocks`:
`currentBlock` is the block being accumulated (in order). -/
def edbLoop : List String → List String → List String
  | [], currentBlock =>
    if currentBlock.isEmpty then [] else [joinNl currentBlock]
  | l :: ls, currentBlock =>
    let trimmedLine := jsTrim l
    let isHeader := isDayHeader trimmedLine
    let flush := isHeader && !currentBlock.isEmpty
    let emitted := if flush then [joinNl currentBlock] else []
    let afterFlush := if flush then [] else currentBlock
    let nextBlock :=
      if trimmedLine ≠ "" then afterFlush ++ [trimmedLine] else afterFlush
    emitted ++ edbLoop ls nextBlock

/-- `MenuParser.extractDayBlocks`. -/
def extractDayBlocks (text : String) : List String :=
  edbLoop (splitNl text) []

/-! ## `extractTimeInfo`

The two regexes of the source are
`/(\d{1,2}:\d{2}(?:am|pm)?)\s*[-—–]\s*(\d{1,2}(?::\d{2})?(?:am|pm)?)/i`
and `/(\d{1,2}:\d{2}(?:am|pm)?)/i`, matched with JS semantics: scan for
the leftmost starting position, greedy quantifiers, backtracking into
`\d{1,2}` and `(?:am|pm)?` when the rest of the pattern fails. -/

/-- `\d{1,2}:\d{2}` at the current position, greedy-with-backtracking on
the hour width (two digits tried first; the one-digit alternative needs
a `:` where the two-digit one saw a digit, so the alternatives are
mutually exclusive).  Returns the consumed characters and the rest. -/
def matchHourMin (cs : List Char) : Option (List Char × List Char) :=
  (match cs with
   | d1 :: d2 :: c :: m1 :: m2 :: rest =>
     if decDigit d1 && decDigit d2 && c = ':' && decDigit m1 && decDigit m2
     then some ([d1, d2, c, m1, m2], rest) else none
   | _ => none)
  <|>
  (match cs with
   | d1 :: c :: m1 :: m2 :: rest =>
     if decDigit d1 && c = ':' && decDigit m1 && decDigit m2
     then some ([d1, c, m1, m2], rest) else none
   | _ => none)

/-- `(?:am|pm)` under `/i`. -/
def matchAmPm : List Char → Option (List Char × List Char)
  | a :: b :: rest =>
    if (foldEq a 'a' || foldEq a 'p') && foldEq b 'm'
    then some ([a, b], rest) else none
  | _ => none

/-- The dash class `[-—–]`. -/
def isRangeDash (c : Char) : Bool := c = '-' || c = '—' || c = '–'

/-- The greedy second digit of `\d{1,2}` in the second capture group
(no backtracking is possible: no later pattern piece can consume a
digit). -/
def hourPart (d1 : Char) (rest : List Char) : List Char × List Char :=
  match rest with
  | d2 :: r => if decDigit d2 then ([d1, d2], r) else ([d1], rest)
  | [] => ([d1], rest)

/-- The greedy optional `(?::\d{2})?` of the second capture group. -/
def minutesPart (r1 : List Char) : List Char × List Char :=
  match r1 with
  | c :: m1 :: m2 :: r =>
    if c = ':' && decDigit m1 && decDigit m2
    then ([c, m1, m2], r) else ([], r1)
  | _ => ([], r1)

/-- The second capture group `(\d{1,2}(?::\d{2})?(?:am|pm)?)`; all three
optional sub-patterns are deterministic because a digit cannot begin any
of them and nothing follows the group. -/
def matchEndToken (cs : List Char) : Option (List Char) :=
  match cs with
  | d1 :: rest =>
    if decDigit d1 then
      let (dig, r1) := hourPart d1 rest
      let (minutes, r2) := minutesPart r1
      match matchAmPm r2 with
      | some (suf, _) => some (dig ++ minutes ++ suf)
      | none => some (dig ++ minutes)
    else none
  | [] => none

def matchDashThenEnd (g1 r : List Char) : Option (List Char × List Char) :=
  match r.dropWhile jsSpace with
  | d :: r2 =>
    if isRangeDash d then
      (matchEndToken (r2.dropWhile jsSpace)).map fun g2 => (g1, g2)
    else none
  | [] => none

/-- One attempt of the full range regex at a fixed starting position:
first capture group (with the `(?:am|pm)?` suffix tried greedily, then
dropped on failure of the rest), the dash, the second capture group. -/
def matchRangeAt (cs : List Char) : Option (List Char × List Char) :=
  (matchHourMin cs).bind fun (g1, r1) =>
    (match matchAmPm r1 with
     | some (suf, r2) => matchDashThenEnd (g1 ++ suf) r2
     | none => none)
    <|> matchDashThenEnd g1 r1

/-- `headerLine.match(range-regex)`: leftmost match, scanning start
positions left to right. -/
def findRange : List Char → Option (List Char × List Char)
  | [] => none
  | c :: cs => matchRangeAt (c :: cs) <|> findRange cs

/-- One attempt of `(\d{1,2}:\d{2}(?:am|pm)?)` at a fixed position. -/
def matchSingleAt (cs : List Char) : Option (List Char) :=
  (matchHourMin cs).map fun (g1, r1) =>
    match matchAmPm r1 with
    | some (suf, _) => g1 ++ suf
    | none => g1

/-- `headerLine.match(single-time-regex)`: leftmost match. -/
def findSingle : List Char → Option (List Char)
  | [] => none
  | c :: cs => matchSingleAt (c :: cs) <|> findSingle cs

/-- `MenuParser.TIME_OF_DAY_PATTERNS`. -/
def TIME_OF_DAY_PATTERNS : List (List Char × String) :=
  [("breakfast".toList, "breakfast"), ("brunch".toList, "brunch"),
   ("lunch".toList, "lunch"), ("dinner".toList, "dinner")]

/-- The `for … break` loop over `TIME_OF_DAY_PATTERNS` with default
`'lunch'`. -/
def todLoop : List (List Char × String) → List Char → String
  | [], _ => "lunch"
  | (p, v) :: ps, h => if containsCI p h then v else todLoop ps h

structure TimeInfo where
  timeOfDay : String
  startTime : String
  endTime : String
  deriving Repr, DecidableEq

/-- `MenuParser.extractTimeInfo`. -/
def extractTimeInfo (headerLine : String) : Option TimeInfo :=
  let timeOfDay := todLoop TIME_OF_DAY_PATTERNS headerLine.toList
  match findRange headerLine.toList with
  | some (a, b) => some ⟨timeOfDay, jsTrim ⟨a⟩, jsTrim ⟨b⟩⟩
  | none =>
    match findSingle headerLine.toList with
    | some a => some ⟨timeOfDay, jsTrim ⟨a⟩, jsTrim ⟨a⟩⟩
    | none => none

/-! ## Notice / boilerplate patterns

Generic helpers for the hand-rolled regex tests: `anyPos f` is regex
scanning (does the rest of the pattern match at some starting
position), `findPos f` the index of the leftmost such position
(`match.index`). -/

def anyPos (f : List Char → Bool) : List Char → Bool
  | [] => f []
  | c :: cs => f (c :: cs) || anyPos f cs

def findPos (f : List Char → Bool) : List Char → Option Nat
  | [] => if f [] then some 0 else none
  | c :: cs =>
    if f (c :: cs) then some 0 else (findPos f cs).map (· + 1)

/-- `.` of a JS regex: any character except a line terminator. -/
def dotChar (c : Char) : Bool := !isLineTerm c

/-- `.+?` followed by the rest of the pattern (`f`); laziness affects
only which match is taken, not whether one exists. -/
def dotPlusThen (f : List Char → Bool) : List Char → Bool
  | [] => false
  | c :: cs => dotChar c && (f cs || dotPlusThen f cs)

/-- `.*` followed by the rest of the pattern. -/
def dotStarThen (f : List Char → Bool) : List Char → Bool
  | [] => f []
  | c :: cs => f (c :: cs) || (dotChar c && dotStarThen f cs)

/-- `\s*-` followed by the rest: the greedy whitespace run is
deterministic because `-` is not whitespace. -/
def wsStarDash (f : List Char → Bool) (r : List Char) : Bool :=
  match r.dropWhile jsSpace with
  | '-' :: r2 => f r2
  | _ => false

/-- `[,.]?\s*` followed by the rest (with the backtracking alternative of
skipping the optional punctuation). -/
def punctOptWs (f : List Char → Bool) (r : List Char) : Bool :=
  (match r with
   | c :: r2 => (c = ',' || c = '.') && f (r2.dropWhile jsSpace)
   | [] => false)
  || f (r.dropWhile jsSpace)

/-- `s?` (case-insensitive) followed by the rest. -/
def sOptThen (f : List Char → Bool) (r : List Char) : Bool :=
  (match r with
   | c :: r2 => foldEq c 's' && f r2
   | [] => false)
  || f r

/-- `\*?` followed by the rest. -/
def starOptThen (f : List Char → Bool) (r : List Char) : Bool :=
  (match r with
   | c :: r2 => c = '*' && f r2
   | [] => false)
  || f r

def hasLitCI (pat : String) (r : List Char) : Bool :=
  (matchLitCI pat.toList r).isSome

/-- `/The salad bars?.+?remain/i` (the block-level variant). -/
def testSaladBarsRemain (cs : List Char) : Bool :=
  anyPos (fun r =>
    match matchLitCI "The salad bar".toList r with
    | some r1 => sOptThen (dotPlusThen (hasLitCI "remain")) r1
    | none => false) cs

/-- The block-level dietary-key pattern (with `.*` gaps):
`Vegetarian\s*- .* Vegan\s*- .* Halal\s*- .* Gluten Free\s*-` under
the `i` flag (spaces added here only to keep the comment well formed). -/
def testDietaryKeyBlock (cs : List Char) : Bool :=
  anyPos (fun r =>
    match matchLitCI "Vegetarian".toList r with
    | some r1 =>
      wsStarDash (dotStarThen (fun r2 =>
        match matchLitCI "Vegan".toList r2 with
        | some r3 =>
          wsStarDash (dotStarThen (fun r4 =>
            match matchLitCI "Halal".toList r4 with
            | some r5 =>
              wsStarDash (dotStarThen (fun r6 =>
                match matchLitCI "Gluten Free".toList r6 with
                | some r7 => wsStarDash (fun _ => true) r7
                | none => false)) r5
            | none => false)) r3
        | none => false)) r1
    | none => false) cs

/-- Whole-string case-insensitive equality: `/^pat$/i` (no `m` flag, so
the anchors are the very ends of the string). -/
def eqCI (pat : String) (cs : List Char) : Bool :=
  matchLitCI pat.toList cs = some []

/-- The `isNoticeLine` test of `MenuParser.parseCourses`: the fixed list
of fourteen patterns, `some`-ed together. -/
def isNoticeLine (trimmedLine : String) : Bool :=
  let cs := trimmedLine.toList
  (anyPos (hasLitCI "Notice") cs) ||                  -- `/Notice\*?/i`
  (anyPos (starOptThen (hasLitCI "Notice")) cs) ||    -- `/\*?Notice/i`
  testSaladBarsRemain cs ||
  (anyPos (hasLitCI "Symbols to identify") cs) ||
  eqCI "Salad Bar" cs ||                              -- `/^Salad Bar$/i`
  (anyPos (hasLitCI "Daily choice of Mixed Greens") cs) ||
  (anyPos (hasLitCI "Diced Cucumbers") cs) ||
  (anyPos (hasLitCI "Carrot Sticks") cs) ||
  (anyPos (hasLitCI "Sunflower seed") cs) ||
  (anyPos (hasLitCI "Alternating Dressing") cs) ||
  (anyPos (hasLitCI "Selection of Deli Meats") cs) ||
  testDietaryKeyBlock cs ||
  eqCI "Deli Bar" cs ||                               -- `/^Deli Bar$/i`
  eqCI "Dressings" cs                                 -- `/^Dressings$/i`

/-! ## `removeNoticeSection`

Its own, shorter pattern list; the method walks the patterns in order
and uses `match.index` of the first pattern that matches anywhere. -/

/-- `/Salad Bar[,.]?$/i` at one position: `Salad Bar`, optional `,`/`.`,
end of string. -/
def saladBarEndAt (r : List Char) : Bool :=
  match matchLitCI "Salad Bar".toList r with
  | some r1 =>
    r1 = [] ||
    (match r1 with
     | c :: r2 => (c = ',' || c = '.') && r2 = []
     | [] => false)
  | none => false

/-- `/The salad bars?.+?remain the same/i` at one position. -/
def saladBarsRemainSameAt (r : List Char) : Bool :=
  match matchLitCI "The salad bar".toList r with
  | some r1 => sOptThen (dotPlusThen (hasLitCI "remain the same")) r1
  | none => false

/-- The dietary-key pattern of `removeNoticeSection` at one position:
`Vegetarian\s*- [,.]?\s*Vegan\s*- [,.]?\s*Halal\s*- [,.]?\s*Gluten
Free\s*-` under the `i` flag (spaces added here only to keep the
comment well formed). -/
def dietaryKeyPunctAt (r : List Char) : Bool :=
  match matchLitCI "Vegetarian".toList r with
  | some r1 =>
    wsStarDash (punctOptWs (fun r2 =>
      match matchLitCI "Vegan".toList r2 with
      | some r3 =>
        wsStarDash (punctOptWs (fun r4 =>
          match matchLitCI "Halal".toList r4 with
          | some r5 =>
            wsStarDash (punctOptWs (fun r6 =>
              match matchLitCI "Gluten Free".toList r6 with
              | some r7 => wsStarDash (fun _ => true) r7
              | none => false)) r5
          | none => false)) r3
      | none => false)) r1
  | none => false

/-- The ordered pattern list of `removeNoticeSection`, as leftmost-index
functions. -/
def noticePatternIdx : List (List Char → Option Nat) :=
  [findPos (hasLitCI "Notice"),                       -- `/Notice\*?[,.]?/i`
   findPos (starOptThen (hasLitCI "Notice")),         -- `/\*?Notice[,.]?/i`
   findPos saladBarsRemainSameAt,
   findPos (hasLitCI "Symbols to identify"),
   findPos saladBarEndAt,
   findPos (hasLitCI "Daily choice of Mixed Greens"),
   findPos dietaryKeyPunctAt]

/-- The `for … break` loop over `noticePatterns`: index of the first
pattern (in list order) that matches, or `none`. -/
def noticeStartIdx (cs : List Char) : Option Nat :=
  (noticePatternIdx.filterMap (fun f => f cs)).head?

/-- `MenuParser.removeNoticeSection`. -/
def removeNoticeSection (text : String) : String :=
  match noticeStartIdx text.toList with
  | some noticeStart => jsTrim ⟨text.toList.take noticeStart⟩
  | none => text

/-! ## Course types -/

/-- `MenuParser.COURSE_TYPE_PATTERNS`. -/
def COURSE_TYPE_PATTERNS : List String :=
  ["Entrée", "Entree", "International Station", "Intemational Station",
   "Salads of the Day", "salads of the Day", "Soups of the Day",
   "Pasta Station", "Dessert", "Appetizer", "Main Course", "Side Dish"]

/-- Exact (case-sensitive) substring containment:
`String.prototype.includes`. -/
def containsSub (pat : List Char) : List Char → Bool :=
  anyPos fun r => (matchLit pat r).isSome

/-- `COURSE_TYPE_PATTERNS.some(p => line.toLowerCase().includes(p.toLowerCase()))`. -/
def isCourseType (trimmedLine : String) : Bool :=
  COURSE_TYPE_PATTERNS.any fun p =>
    containsSub (toLowerL p.toList) (toLowerL trimmedLine.toList)

/-- `MenuParser.normalizeCourseType`. -/
def normalizeCourseType (courseType : String) : String :=
  let normalized := jsTrim courseType
  let low := toLowerL normalized.toList
  if containsSub "entrée".toList low || containsSub "entree".toList low then
    "Entrée"
  else if containsSub "international".toList low ||
      containsSub "intemational".toList low then
    "International Station"
  else if containsSub "salad".toList low then "Salads of the Day"
  else if containsSub "soup".toList low then "Soups of the Day"
  else if containsSub "pasta".toList low then "Pasta Station"
  else if containsSub "dessert".toList low then "Dessert"
  else normalized

/-! ## `removeOcrArtifacts`

Each `replace(/re/g, rep)` of the chain is modelled by a matcher
`List Char → Option Nat` giving the length of the (greedy) match at the
current position, plugged into the generic global-replace scanner
`replaceM`.  Every matcher below is deterministic (the analysis is in
the matcher comments), and never matches the empty string. -/

/-- A position matcher: length of the regex match starting here. -/
def Matcher := List Char → Option Nat

def mLit (lit : List Char) : Matcher := fun cs =>
  (matchLit lit cs).map fun _ => lit.length

/-- A single character of a class. -/
def mChar (p : Char → Bool) : Matcher := fun cs =>
  match cs with
  | c :: _ => if p c then some 1 else none
  | [] => none

/-- `p{min,}` as a maximal run (valid where the following pattern piece
cannot consume a `p` character, which holds at every use below). -/
def mRun (p : Char → Bool) (minN : Nat) : Matcher := fun cs =>
  let n := (cs.takeWhile p).length
  if minN ≤ n then some n else none

def mSeq (a b : Matcher) : Matcher := fun cs =>
  (a cs).bind fun n => (b (cs.drop n)).map (n + ·)

/-- `x?` (valid where deterministic: the optional piece and the piece
after it start with different characters at every use below). -/
def mOpt (a : Matcher) : Matcher := fun cs => (a cs).orElse fun _ => some 0

/-- `\s* core \s*` with greedy whitespace runs (deterministic since no
core below starts or ends with a whitespace character). -/
def wsW (core : Matcher) : Matcher :=
  mSeq (mRun jsSpace 0) (mSeq core (mRun jsSpace 0))

/-- The class `[-\\/|*+>]`. -/
def symCls (c : Char) : Bool :=
  c = '-' || c = '\\' || c = '/' || c = '|' || c = '*' || c = '+' || c = '>'

/-- `\s+[A-Z]\s+` (isolated capital letter). -/
def mIsolatedCap : Matcher :=
  mSeq (mRun jsSpace 1) (mSeq (mChar isUpperAZ) (mRun jsSpace 1))

/-- `\s+[A-Z]$` (trailing isolated capital; `$` is the end of the
string). -/
def mWsCapEnd : Matcher := fun cs =>
  let w := (cs.takeWhile jsSpace).length
  if 1 ≤ w then
    match cs.drop w with
    | [c] => if isUpperAZ c then some (w + 1) else none
    | _ => none
  else none

/-- The class `[►▼▲◄◊♦▪▫■□●○]`. -/
def shapeCls (c : Char) : Bool :=
  c = '►' || c = '▼' || c = '▲' || c = '◄' || c = '◊' || c = '♦' ||
  c = '▪' || c = '▫' || c = '■' || c = '□' || c = '●' || c = '○'

/-- The class `[★☆✓✔️❌×⚠️⚡️]`: the emoji-style literals are each two
code points, so the class members are the nine distinct code points
★ ☆ ✓ ✔ U+FE0F ❌ × ⚠ ⚡. -/
def starCls (c : Char) : Bool :=
  c = '★' || c = '☆' || c = '✓' || c = '✔' || c = '️' ||
  c = '❌' || c = '×' || c = '⚠' || c = '⚡'

/-- `[\u{1F300}-\u{1F9FF}]` (with the `u` flag: a code-point range). -/
def emojiCls (c : Char) : Bool :=
  0x1F300 ≤ c.toNat && c.toNat ≤ 0x1F9FF

/-- `[\u{2600}-\u{26FF}]`. -/
def miscSymCls (c : Char) : Bool :=
  0x2600 ≤ c.toNat && c.toNat ≤ 0x26FF

/-- `[\u{2700}-\u{27BF}]`. -/
def dingbatCls (c : Char) : Bool :=
  0x2700 ≤ c.toNat && c.toNat ≤ 0x27BF

/-- `\[\\?\/?\/?\]`: literal `[`, optional `\`, up to two optional `/`,
literal `]` (deterministic: none of the optional characters is `]`). -/
def mBracketSlash : Matcher :=
  mSeq (mLit ['[']) <|
  mSeq (mOpt (mChar (· = '\\'))) <|
  mSeq (mOpt (mChar (· = '/'))) <|
  mSeq (mOpt (mChar (· = '/'))) (mLit [']'])

/-- `\[[-\\/|*+>]+\]`. -/
def mBracketSyms : Matcher :=
  mSeq (mLit ['[']) (mSeq (mRun symCls 1) (mLit [']']))

/-- `\([-\\/|*+>]+\)`. -/
def mParenSyms : Matcher :=
  mSeq (mLit ['(']) (mSeq (mRun symCls 1) (mLit [')']))

/-- `\(\d\)`. -/
def mParenDigit : Matcher :=
  mSeq (mLit ['(']) (mSeq (mChar decDigit) (mLit [')']))

/-- Generic global `String.prototype.replace` with a position matcher:
scan left to right, on a match of length `n + 1` emit the replacement
and resume after the match.  `fuel` starts at the string length, enough
because every match consumes at least one character (no matcher here
returns 0). -/
def replaceMAux (m : Matcher) (rep : List Char) : Nat → List Char → List Char
  | _, [] => []
  | 0, cs => cs
  | fuel + 1, c :: cs =>
    match m (c :: cs) with
    | some (n + 1) => rep ++ replaceMAux m rep fuel (cs.drop n)
    | _ => c :: replaceMAux m rep fuel cs

def replaceM (m : Matcher) (rep : List Char) (cs : List Char) : List Char :=
  replaceMAux m rep cs.length cs

/-- A first-match-to-end replace with empty replacement, for the
end-anchored non-global patterns `,\s*$` and `\s*@\s*$`: drop everything
from the leftmost position whose suffix matches the whole pattern. -/
def dropFromFirst (f : List Char → Bool) : List Char → List Char
  | [] => []
  | c :: cs => if f (c :: cs) then [] else c :: dropFromFirst f cs

/-- One `replace` stage applied to the working character list. -/
def ocrStep (cs : List Char) (p : Matcher × List Char) : List Char :=
  replaceM p.1 p.2 cs

/-- The replacement chain of `MenuParser.removeOcrArtifacts`, in source
order: each entry is the matcher of one global regex together with its
replacement string. -/
def ocrChain : List (Matcher × List Char) :=
    [(wsW mBracketSlash, []),
     (wsW (mLit "[>]".toList), []),
     (wsW (mLit "[>>]".toList), []),
     (wsW (mLit "[<]".toList), []),
     (wsW (mLit "[<<]".toList), []),
     (wsW (mLit "(>>)".toList), []),
     (wsW (mLit "(<<)".toList), []),
     (wsW (mLit "[]".toList), []),
     (wsW (mLit "()".toList), []),
     (wsW (mLit "\x7b\x7d".toList), []),
     (wsW (mLit "®".toList), []),
     (wsW (mLit "©".toList), []),
     (wsW (mLit "™".toList), []),
     (wsW (mLit "℠".toList), []),
     (wsW (mLit "[Vv]".toList), []),
     (wsW (mLit "(Vv)".toList), []),
     (wsW mBracketSyms, []),
     (wsW mParenSyms, []),
     (wsW mParenDigit, []),
     (wsW (mLit "@@)".toList), []),
     (wsW (mRun (· = '@') 1), []),
     (mIsolatedCap, [' ']),
     (mWsCapEnd, []),
     (wsW (mChar shapeCls), []),
     (wsW (mChar starCls), []),
     (mChar emojiCls, []),
     (mChar miscSymCls, []),
     (mChar dingbatCls, []),
     (mSeq (mRun jsSpace 0)
        (mSeq (mLit [',']) (mSeq (mRun jsSpace 0) (mLit [',']))), [',']),
     (mRun jsSpace 2, [' '])]

/-- `MenuParser.removeOcrArtifacts`: the replacement chain in source
order (no replacement is rescanned), then the non-global `,\s*$`
removal, ending in `.trim()`. -/
def removeOcrArtifacts (text : String) : String :=
  let afterChain := ocrChain.foldl ocrStep text.toList
  let afterComma := dropFromFirst
    (fun r => match r with
      | ',' :: rest => rest.all jsSpace
      | _ => false) afterChain
  jsTrim ⟨afterComma⟩

/-- Soundness bound for one replacement stage: a reported match is no
shorter than its replacement and no longer than the remaining input
(this is what makes every stage length-non-increasing). -/
def MatcherGood (p : Matcher × List Char) : Prop :=
  ∀ cs n, p.1 cs = some n → p.2.length ≤ n ∧ n ≤ cs.length

/-- `MenuParser.cleanFoodItem`: notice stripping, artifact removal, then
`^[-•*]\s*` bullet removal, `\s*@\s*$` trailing-at removal, `.trim()`. -/
def cleanFoodItem (item : String) : String :=
  let withoutNotice := removeNoticeSection item
  let afterOcr := (removeOcrArtifacts withoutNotice).toList
  let afterBullet :=
    match afterOcr with
    | c :: rest =>
      if c = '-' || c = '•' || c = '*' then rest.dropWhile jsSpace
      else afterOcr
    | [] => afterOcr
  let afterAt := dropFromFirst
    (fun r =>
      let w := (r.takeWhile jsSpace).length
      match r.drop w with
      | '@' :: rest => rest.all jsSpace
      | _ => false) afterBullet
  jsTrim ⟨afterAt⟩

/-! ## `parseCourses` -/

/-- `currentFoodItems.join(', ')`. -/
def joinComma : List String → String
  | [] => ""
  | [x] => x
  | x :: xs => x ++ ", " ++ joinComma xs

/-- The flush step of `parseCourses` (`courses.push({...})` guarded by
`currentCourseType && currentFoodItems.length > 0`), used both inside
the loop and after it. -/
def finishCourse (courses : List Course) (cct : String) (cfi : List String)
    (cid : Nat) : List Course :=
  if cct ≠ "" ∧ cfi ≠ [] then courses ++ [⟨cid, cct, joinComma cfi⟩]
  else courses

/-- The `for … of` loop of `MenuParser.parseCourses`, with the loop
state (accumulated courses, `currentCourseType`, `currentFoodItems`,
`courseId`) made explicit; a notice line `break`s to the trailing
flush. -/
def pcLoop : List String → List Course → String → List String → Nat →
    List Course
  | [], courses, cct, cfi, cid => finishCourse courses cct cfi cid
  | line :: rest, courses, cct, cfi, cid =>
    let trimmedLine := jsTrim line
    if isNoticeLine trimmedLine then
      finishCourse courses cct cfi cid
    else if isCourseType trimmedLine then
      let flush := cct ≠ "" ∧ cfi ≠ []
      let courses1 := if flush then courses ++ [⟨cid, cct, joinComma cfi⟩]
                      else courses
      let cid1 := if flush then cid + 1 else cid
      pcLoop rest courses1 (normalizeCourseType trimmedLine) [] cid1
    else if trimmedLine ≠ "" ∧ cct ≠ "" then
      let cleanedItem := cleanFoodItem trimmedLine
      pcLoop rest courses cct
        (if cleanedItem ≠ "" then cfi ++ [cleanedItem] else cfi) cid
    else if trimmedLine ≠ "" ∧ cct = "" then
      let cleanedItem := cleanFoodItem trimmedLine
      pcLoop rest courses "Main Items"
        (if cleanedItem ≠ "" then cfi ++ [cleanedItem] else cfi) cid
    else
      pcLoop rest courses cct cfi cid

/-- `MenuParser.parseCourses`. -/
def parseCourses (lines : List String) : List Course :=
  pcLoop lines [] "" [] 0

/-! ## `parseDayBlock` and `parseMenu` -/

/-- `MenuParser.parseDayBlock`. -/
def parseDayBlock (dayBlock : String) (dayIndex : Nat) : Option MenuDay :=
  let lines := ((splitNl dayBlock).map jsTrim).filter (· ≠ "")
  match lines with
  | [] => none
  | headerLine :: rest =>
    match extractTimeInfo headerLine with
    | none => none
    | some timeInfo =>
      some ⟨dayIndex, timeInfo.timeOfDay, timeInfo.startTime,
            timeInfo.endTime, parseCourses rest⟩

/-- `MenuParser.parseMenu`: the day-indexed result object, as an
association list in insertion (= block) order; a block whose
`parseDayBlock` is `null` contributes no entry, but the index still
advances with the block position (`forEach`). -/
def parseMenu (ocrText : String) : ParsedMenu :=
  let dayBlocks := extractDayBlocks (cleanText ocrText)
  dayBlocks.enum.filterMap fun p => (parseDayBlock p.2 p.1).map fun d => (p.1, d)

/-! ## Definitions taken from the specification, for comparison claims -/

/-- The field names of the source's `MenuDay` interface
(`src/app/services/menuParser.ts`, lines 10–16), in declaration order:
what one entry of the rule-based parser's result object carries. -/
def menuDayFields : List String :=
  ["id", "timeOfDay", "startTime", "endTime", "courses"]

/-- Modelled from the spec: the §6 interchange shape of a day entry — an
object with `id`, `dayName` (the weekday literal) and `meals` (the array
of meal sessions, each carrying its courses). -/
def specDayEntryFields : List String :=
  ["id", "dayName", "meals"]

/-- Hour of one or two digits (greedy alternatives), then `f` on the
rest — shared scaffold of the clock-token grammars below. -/
def hourThen (f : List Char → Bool) (cs : List Char) : Bool :=
  match cs with
  | d1 :: rest =>
    decDigit d1 &&
    ((match rest with
      | d2 :: r2 => decDigit d2 && f r2
      | [] => false) || f rest)
  | [] => false

/-- Optional case-insensitive `am`/`pm` suffix closing the token. -/
def amPmOptEnd (r : List Char) : Bool :=
  r.isEmpty ||
  (match r with
   | [a, b] => (foldEq a 'a' || foldEq a 'p') && foldEq b 'm'
   | _ => false)

/-- `:` and a two-digit minute, then the optional suffix, closing the
token. -/
def minuteTail (r : List Char) : Bool :=
  match r with
  | c :: m1 :: m2 :: r2 =>
    c = ':' && decDigit m1 && decDigit m2 && amPmOptEnd r2
  | _ => false

/-- Modelled from the spec (§4.3 and claim C5): a clock-time token —
hour, *optional* `:minute`, optional am/pm suffix. -/
def specClockToken (s : String) : Bool :=
  hourThen (fun r => minuteTail r || amPmOptEnd r) s.toList

/-- Modelled from the amended claim: the shape the code actually demands
of the first range token and of the fallback token — hour, *required*
two-digit `:minute`, optional am/pm suffix. -/
def startTokShape (s : String) : Bool :=
  hourThen minuteTail s.toList

/-! ## Theorems -/

set_option maxRecDepth 100000

/-- C7: the claim states that the text normalizer folds curly/smart
quotes to ASCII and folds exotic Unicode spaces to ordinary spaces.  The
code does neither: the quote replacements substitute the ASCII quote for
itself, and the "Unicode spaces" pattern is the literal three-character
sequence `U+2000 - U+200F`, not a character class.  This theorem
evaluates the normalizer at the failing inputs: the em space U+2003 and
the curly apostrophe U+2019 pass through unchanged (while NBSP, CR LF,
the em dash and the ellipsis are handled, as the last conjuncts show).
-/
theorem claim7_cleanText_misses_exotic_spaces_and_smart_quotes :
    cleanText "a b" = "a b" ∧
    cleanText "it’s" = "it’s" ∧
    cleanText "a b" = "a b" ∧
    cleanText "a\r\nb—c…d" = "a\nb-c...d" := by
  refine ⟨by decide, by decide, by decide, by decide⟩

/-- C2: the claim states that every day entry of the rule-based parse
conforms to the §6 interchange shape, bundling a `dayName` and a `meals`
array of sessions.  The rule-based `MenuDay` is flat — it carries
`timeOfDay`/`startTime`/`endTime`/`courses` directly and has no
`dayName` and no `meals` field — so the parse output at the concrete
input below cannot carry the required fields.  (The repository's own
consumers, `grokParser.ts`'s validator and the review page's imports,
require the `dayName`/`meals` shape, which is why this is recorded as a
code bug.) -/
theorem claim2_menuDay_lacks_dayName_and_meals :
    parseMenu "Monday lunch 11:20am - 1:00pm\nPasta" =
      [(0, ⟨0, "lunch", "11:20am", "1:00pm", [⟨0, "Main Items", "Pasta"⟩]⟩)] ∧
    ("dayName" ∈ specDayEntryFields ∧ "dayName" ∉ menuDayFields) ∧
    ("meals" ∈ specDayEntryFields ∧ "meals" ∉ menuDayFields) := by
  refine ⟨by decide, by decide, by decide⟩

/-- C6 (counterexample): the claim states that the item sanitizer checks
the same notice patterns as the block-level boundary check plus extended
named sub-bar labels such as `Deli Bar`, truncating before the first
match.  A standalone `Deli Bar` line (and a line containing the
block-level pattern `Diced Cucumbers`) is a block-level notice line, yet
the sanitizer leaves it completely untouched — its pattern list is
shorter, not longer. -/
theorem claim6_counterexample_deliBar_not_truncated :
    isNoticeLine "Deli Bar" = true ∧
    removeNoticeSection "Deli Bar" = "Deli Bar" ∧
    cleanFoodItem "Deli Bar" = "Deli Bar" ∧
    isNoticeLine "Diced Cucumbers" = true ∧
    removeNoticeSection "xxx Diced Cucumbers" = "xxx Diced Cucumbers" := by
  refine ⟨by decide, by decide, by decide, by decide, by decide⟩

/-- C8 (counterexample): the sanitizer is not idempotent.  The sanitized
form of `"a B C d"` is `"a C d"` — an already-clean string (it is in the
image of `cleanFoodItem`) — and sanitizing it again yields `"a d"`: the
isolated-capital rule creates a new isolated capital. -/
theorem claim8_counterexample_not_idempotent :
    cleanFoodItem (cleanFoodItem "a B C d") ≠ cleanFoodItem "a B C d" := by
  decide

/-- C4 (counterexample): the claim states that leading lines preceding
the first day-boundary line form no block and are discarded by the
segmenter.  In fact they are flushed as a block of their own when the
first boundary arrives. -/
theorem claim4_counterexample_preamble_forms_a_block :
    extractDayBlocks "preamble\nMonday" = ["preamble", "Monday"] := by
  decide

/-- A block that yields no day at index 0 yields no day at any index:
the day index only populates the `id` field of a produced `MenuDay`. -/
theorem parseDayBlock_none_of_none_zero (b : String) (i : Nat)
    (h : parseDayBlock b 0 = none) : parseDayBlock b i = none := by
  unfold parseDayBlock at h ⊢
  cases hl : ((splitNl b).map jsTrim).filter (· ≠ "") with
  | nil => simp
  | cons headerLine rest =>
    rw [hl] at h
    cases ht : extractTimeInfo headerLine with
    | none => simp [ht]
    | some t => simp [ht] at h

/-- Membership in `enumFrom` determines the indexed element. -/
theorem get?_of_mem_enumFrom {α : Type} :
    ∀ (l : List α) (n i : Nat) (x : α),
      (i, x) ∈ l.enumFrom n → n ≤ i ∧ l.get? (i - n) = some x := by
  intro l
  induction l with
  | nil => intro n i x h; simp [List.enumFrom] at h
  | cons a l ih =>
    intro n i x h
    simp only [List.enumFrom, List.mem_cons] at h
    rcases h with h | h
    · injection h with h1 h2
      subst h1
      subst h2
      simp
    · obtain ⟨h1, h2⟩ := ih (n + 1) i x h
      refine ⟨by omega, ?_⟩
      have : i - n = (i - (n + 1)) + 1 := by omega
      rw [this]
      simpa using h2

/-- C1: `parse` is total (it is a Lean function into association lists),
and on fully unparseable input — every extracted block fails the header
parse — it returns a `WeeklyMenu` with zero day entries. -/
theorem claim1_parse_returns_empty_on_unparseable (s : String)
    (h : ∀ b ∈ extractDayBlocks (cleanText s), parseDayBlock b 0 = none) :
    parseMenu s = [] := by
  unfold parseMenu
  rw [List.filterMap_eq_nil_iff]
  rintro ⟨i, b⟩ hp
  have hb : b ∈ extractDayBlocks (cleanText s) := by
    have h2 := get?_of_mem_enumFrom _ _ _ _ hp
    exact List.get?_mem h2.2
  have := parseDayBlock_none_of_none_zero b i (h b hb)
  simp [this]

/-- C1 witness: a fully unparseable concrete input. -/
theorem claim1_witness :
    parseMenu "hello world" = [] :=
  claim1_parse_returns_empty_on_unparseable "hello world" (by decide)

/-- C10: every day entry of the parse result is keyed by the position of
its source block among *all* extracted blocks (including blocks that
produced no day); when an earlier block is skipped the keys are
therefore non-contiguous, as the concrete conjunct shows (the first
block is skipped and the only key is `1`). -/
theorem claim10_key_equals_block_position :
    (∀ (s : String) (i : Nat) (d : MenuDay), (i, d) ∈ parseMenu s →
      ∃ b, (extractDayBlocks (cleanText s)).get? i = some b ∧
        parseDayBlock b i = some d) ∧
    (parseMenu "Monday no time\nTuesday dinner 5:00pm - 7:00pm\nSoup").map
        Prod.fst = [1] := by
  constructor
  · intro s i d hm
    unfold parseMenu at hm
    obtain ⟨⟨j, b⟩, hmem, heq⟩ := List.mem_filterMap.mp hm
    obtain ⟨d', hd', hpair⟩ := Option.map_eq_some'.mp heq
    obtain ⟨hj, hdd⟩ := Prod.mk.injEq .. ▸ hpair
    subst hj
    subst hdd
    have h2 := get?_of_mem_enumFrom _ _ _ _ hmem
    exact ⟨b, by simpa using h2.2, hd'⟩
  · decide

/-- C10 witness: the universal part applied to the concrete gapped
input. -/
theorem claim10_witness :
    ∃ b, (extractDayBlocks (cleanText
        "Monday no time\nTuesday dinner 5:00pm - 7:00pm\nSoup")).get? 1 =
        some b ∧
      parseDayBlock b 1 =
        some ⟨1, "dinner", "5:00pm", "7:00pm", [⟨0, "Main Items", "Soup"⟩]⟩ :=
  claim10_key_equals_block_position.1
    "Monday no time\nTuesday dinner 5:00pm - 7:00pm\nSoup" 1
    ⟨1, "dinner", "5:00pm", "7:00pm", [⟨0, "Main Items", "Soup"⟩]⟩ (by decide)

/-- The course loop, run into a notice line, equals the course loop run
only on the lines before it: the `break` jumps straight to the trailing
flush, which is exactly how the loop ends on the shorter list. -/
theorem pcLoop_break (n : String) (post : List String)
    (hn : isNoticeLine (jsTrim n) = true) :
    ∀ (pre : List String) (courses : List Course) (cct : String)
      (cfi : List String) (cid : Nat),
      (∀ l ∈ pre, isNoticeLine (jsTrim l) = false) →
      pcLoop (pre ++ n :: post) courses cct cfi cid =
        pcLoop pre courses cct cfi cid := by
  intro pre
  induction pre with
  | nil =>
    intro courses cct cfi cid _
    simp [pcLoop, hn]
  | cons l pre ih =>
    intro courses cct cfi cid hpre
    have hl : isNoticeLine (jsTrim l) = false := hpre l (by simp)
    have hrest : ∀ x ∈ pre, isNoticeLine (jsTrim x) = false := by
      intro x hx; exact hpre x (by simp [hx])
    simp only [List.cons_append, pcLoop, hl, Bool.false_eq_true, if_false]
    split
    · exact ih _ _ _ _ hrest
    · split
      · exact ih _ _ _ _ hrest
      · split
        · exact ih _ _ _ _ hrest
        · exact ih _ _ _ _ hrest

/-- C3: hard truncation at the first notice line of a block — the
courses produced from `pre ++ notice :: post` are exactly the courses
produced from `pre`; no food item occurring after the first
notice-pattern line can appear in the output. -/
theorem claim3_notice_truncates_block (pre : List String) (n : String)
    (post : List String) (hn : isNoticeLine (jsTrim n) = true)
    (hpre : ∀ l ∈ pre, isNoticeLine (jsTrim l) = false) :
    parseCourses (pre ++ n :: post) = parseCourses pre :=
  pcLoop_break n post hn pre [] "" [] 0 hpre

/-- C3 witness: a block with two items, a notice line and a would-be
item after it. -/
theorem claim3_witness :
    parseCourses (["Entrée", "Pasta"] ++ "Notice: allergens" :: ["Cake"]) =
      parseCourses ["Entrée", "Pasta"] :=
  claim3_notice_truncates_block ["Entrée", "Pasta"] "Notice: allergens"
    ["Cake"] (by decide) (by decide)

/-- Running the segmenter loop over boundary-free lines only accumulates
their non-blank trimmed forms onto the current block. -/
theorem edbLoop_accum :
    ∀ (pre rest cur : List String),
      (∀ l ∈ pre, isDayHeader (jsTrim l) = false) →
      edbLoop (pre ++ rest) cur =
        edbLoop rest (cur ++ (pre.map jsTrim).filter (· ≠ "")) := by
  intro pre
  induction pre with
  | nil => intro rest cur _; simp
  | cons l pre ih =>
    intro rest cur hpre
    have hl : isDayHeader (jsTrim l) = false := hpre l (by simp)
    have hrest : ∀ x ∈ pre, isDayHeader (jsTrim x) = false := by
      intro x hx; exact hpre x (by simp [hx])
    simp only [List.cons_append, edbLoop, hl, Bool.false_and,
      Bool.false_eq_true, if_false, List.map_cons, List.filter_cons,
      List.append_eq, List.nil_append]
    by_cases ht : jsTrim l = ""
    · rw [if_neg (by simp [ht]), if_neg (by simp [ht])]
      exact ih rest cur hrest
    · rw [if_pos ht, if_pos (by simp [ht])]
      rw [ih rest (cur ++ [jsTrim l]) hrest]
      simp

/-- At a day-boundary line with a non-empty current block, the segmenter
loop flushes the block and restarts on the same line. -/
theorem edbLoop_flushes (r : String) (rs cur : List String)
    (hr : isDayHeader (jsTrim r) = true) (hcur : cur ≠ []) :
    edbLoop (r :: rs) cur = joinNl cur :: edbLoop (r :: rs) [] := by
  have h1 : cur.isEmpty = false := by
    cases cur with
    | nil => exact absurd rfl hcur
    | cons a l => rfl
  simp [edbLoop, hr, h1]

/-- C4 (amended): leading lines preceding the first day-boundary line
are *not* discarded by the segmenter; their non-blank trimmed forms are
grouped into a leading block of their own, closed when the first
boundary arrives, and segmentation then continues from the boundary line
with an empty current block. -/
theorem claim4_amended_preamble_is_own_block (text : String)
    (pre : List String) (r : String) (rs : List String)
    (hsplit : splitNl text = pre ++ r :: rs)
    (hpre : ∀ l ∈ pre, isDayHeader (jsTrim l) = false)
    (hr : isDayHeader (jsTrim r) = true)
    (hne : (pre.map jsTrim).filter (· ≠ "") ≠ []) :
    extractDayBlocks text =
      joinNl ((pre.map jsTrim).filter (· ≠ "")) :: edbLoop (r :: rs) [] := by
  unfold extractDayBlocks
  rw [hsplit, edbLoop_accum pre (r :: rs) [] hpre]
  simp only [List.nil_append]
  exact edbLoop_flushes r rs _ hr hne

/-- C4 witness: the amended statement at the concrete preamble input. -/
theorem claim4_witness :
    extractDayBlocks "preamble\nMonday" =
      joinNl ((["preamble"].map jsTrim).filter (· ≠ "")) ::
        edbLoop ["Monday"] [] :=
  claim4_amended_preamble_is_own_block "preamble\nMonday" ["preamble"]
    "Monday" [] (by decide) (by decide) (by decide) (by decide)

/-- The `timeOfDay` of any produced session is the result of the
ordered keyword loop. -/
theorem extractTimeInfo_timeOfDay (h : String) (t : TimeInfo)
    (hext : extractTimeInfo h = some t) :
    t.timeOfDay = todLoop TIME_OF_DAY_PATTERNS h.toList := by
  unfold extractTimeInfo at hext
  split at hext
  · simp only [Option.some.injEq] at hext
    subst hext
    rfl
  · split at hext
    · simp only [Option.some.injEq] at hext
      subst hext
      rfl
    · exact absurd hext (by simp)

/-- C9: `timeOfDay` is resolved by the ordered case-insensitive keyword
patterns breakfast, brunch, lunch, dinner, first match winning, with
default `"lunch"` when no keyword occurs in the header. -/
theorem claim9_timeOfDay_ordered_first_match (h : String) (t : TimeInfo)
    (hext : extractTimeInfo h = some t) :
    (containsCI "breakfast".toList h.toList = true →
      t.timeOfDay = "breakfast") ∧
    (containsCI "breakfast".toList h.toList = false →
      containsCI "brunch".toList h.toList = true →
      t.timeOfDay = "brunch") ∧
    (containsCI "breakfast".toList h.toList = false →
      containsCI "brunch".toList h.toList = false →
      containsCI "lunch".toList h.toList = true →
      t.timeOfDay = "lunch") ∧
    (containsCI "breakfast".toList h.toList = false →
      containsCI "brunch".toList h.toList = false →
      containsCI "lunch".toList h.toList = false →
      containsCI "dinner".toList h.toList = true →
      t.timeOfDay = "dinner") ∧
    (containsCI "breakfast".toList h.toList = false →
      containsCI "brunch".toList h.toList = false →
      containsCI "lunch".toList h.toList = false →
      containsCI "dinner".toList h.toList = false →
      t.timeOfDay = "lunch") := by
  have htod := extractTimeInfo_timeOfDay h t hext
  rw [htod]
  simp only [TIME_OF_DAY_PATTERNS, todLoop]
  refine ⟨?_, ?_, ?_, ?_, ?_⟩
  · intro h1
    rw [if_pos h1]
  · intro h1 h2
    rw [if_neg (by simpa using h1), if_pos h2]
  · intro h1 h2 h3
    rw [if_neg (by simpa using h1), if_neg (by simpa using h2), if_pos h3]
  · intro h1 h2 h3 h4
    rw [if_neg (by simpa using h1), if_neg (by simpa using h2),
      if_neg (by simpa using h3), if_pos h4]
  · intro h1 h2 h3 h4
    rw [if_neg (by simpa using h1), if_neg (by simpa using h2),
      if_neg (by simpa using h3), if_neg (by simpa using h4)]

/-- C9 witness: the dinner clause of the theorem at a concrete dinner
header, with every keyword test discharged by evaluation. -/
theorem claim9_witness :
    TimeInfo.timeOfDay ⟨"dinner", "5:00pm", "5:00pm"⟩ = "dinner" :=
  (claim9_timeOfDay_ordered_first_match "Dinner 5:00pm"
    ⟨"dinner", "5:00pm", "5:00pm"⟩ (by decide)).2.2.2.1
    (by decide) (by decide) (by decide) (by decide)

/-- C5 (counterexample): the claim says each of the two range tokens has
the form hour, *optional* `:minute`, optional am/pm.  In the header
below, `9am` and `10:30am` are exactly such tokens, dash-separated, so
the claim demands `startTime = "9am"`, `endTime = "10:30am"`.  The code
requires an explicit `:minute` in the *first* token, misses the range,
and falls back to the single-token path, returning `10:30am` for both
fields. -/
theorem claim5_counterexample_first_token_requires_minutes :
    specClockToken "9am" = true ∧
    specClockToken "10:30am" = true ∧
    containsSub "9am - 10:30am".toList "lunch 9am - 10:30am".toList = true ∧
    extractTimeInfo "lunch 9am - 10:30am" =
      some ⟨"lunch", "10:30am", "10:30am"⟩ := by
  refine ⟨by decide, by decide, by decide, by decide⟩

theorem toList_mk (l : List Char) : (⟨l⟩ : String).toList = l := rfl

/-- Dropping while a predicate that holds nowhere drops nothing. -/
theorem dropWhile_eq_self_of {p : Char → Bool} :
    ∀ l : List Char, (∀ c ∈ l, p c = false) → l.dropWhile p = l := by
  intro l h
  cases l with
  | nil => rfl
  | cons a l =>
    rw [List.dropWhile_cons_of_neg]
    simp [h a (by simp)]

/-- `trim` is the identity on strings with no JS whitespace at all. -/
theorem trimL_eq_of_nonspace (cs : List Char)
    (h : ∀ c ∈ cs, jsSpace c = false) : trimL cs = cs := by
  unfold trimL
  rw [dropWhile_eq_self_of cs h,
    dropWhile_eq_self_of cs.reverse (by intro c hc; exact h c (List.mem_reverse.mp hc)),
    List.reverse_reverse]

/-- Decimal digits are not JS whitespace. -/
theorem decDigit_not_space (c : Char) (h : decDigit c = true) :
    jsSpace c = false := by
  simp only [decDigit, Bool.and_eq_true, decide_eq_true_eq] at h
  by_contra hs
  rw [Bool.not_eq_false] at hs
  simp only [jsSpace, Bool.or_eq_true, decide_eq_true_eq,
    Bool.and_eq_true] at hs
  omega

/-- A character that case-folds onto an ASCII uppercase letter is not JS
whitespace. -/
theorem foldEq_upper_not_space (x y : Char) (h : foldEq x y = true)
    (h1 : 0x41 ≤ (asciiUpper y).toNat) (h2 : (asciiUpper y).toNat ≤ 0x5A) :
    jsSpace x = false := by
  simp only [foldEq, decide_eq_true_eq] at h
  by_contra hs
  rw [Bool.not_eq_false] at hs
  simp only [jsSpace, Bool.or_eq_true, decide_eq_true_eq,
    Bool.and_eq_true] at hs
  have hx : asciiUpper x = x := by
    unfold asciiUpper
    rw [if_neg (by omega)]
  rw [hx] at h
  have : x.toNat = (asciiUpper y).toNat := congrArg Char.toNat h
  omega

/-- The first capture group core is `h:mm` or `hh:mm` with decimal
digits. -/
theorem matchHourMin_cases (cs g1 r : List Char)
    (h : matchHourMin cs = some (g1, r)) :
    (∃ d1 d2 m1 m2, g1 = [d1, d2, ':', m1, m2] ∧ decDigit d1 = true ∧
      decDigit d2 = true ∧ decDigit m1 = true ∧ decDigit m2 = true) ∨
    (∃ d1 m1 m2, g1 = [d1, ':', m1, m2] ∧ decDigit d1 = true ∧
      decDigit m1 = true ∧ decDigit m2 = true) := by
  unfold matchHourMin at h
  cases hA : (match cs with
   | d1 :: d2 :: c :: m1 :: m2 :: rest =>
     if decDigit d1 && decDigit d2 && c = ':' && decDigit m1 && decDigit m2
     then some ([d1, d2, c, m1, m2], rest) else none
   | _ => none) with
  | some v =>
    rw [hA] at h
    simp only [Option.some_orElse, Option.some.injEq] at h
    subst h
    left
    split at hA
    · rename_i d1 d2 c m1 m2 rest
      split at hA
      · rename_i hcond
        simp only [Bool.and_eq_true, decide_eq_true_eq] at hcond
        obtain ⟨⟨⟨⟨h1, h2⟩, hc⟩, h3⟩, h4⟩ := hcond
        subst hc
        injection hA with hA
        injection hA with hA1 hA2
        exact ⟨d1, d2, m1, m2, hA1.symm, h1, h2, h3, h4⟩
      · exact absurd hA (by simp)
    · exact absurd hA (by simp)
  | none =>
    rw [hA] at h
    simp only [Option.none_orElse] at h
    right
    split at h
    · rename_i d1 c m1 m2 rest
      split at h
      · rename_i hcond
        simp only [Bool.and_eq_true, decide_eq_true_eq] at hcond
        obtain ⟨⟨⟨h1, hc⟩, h3⟩, h4⟩ := hcond
        subst hc
        simp only [Option.some.injEq, Prod.mk.injEq] at h
        exact ⟨d1, m1, m2, h.1.symm, h1, h3, h4⟩
      · exact absurd h (by simp)
    · exact absurd h (by simp)

/-- The optional suffix is a two-character case-insensitive `am`/`pm`. -/
theorem matchAmPm_cases (r suf r2 : List Char)
    (h : matchAmPm r = some (suf, r2)) :
    ∃ a b, suf = [a, b] ∧ (foldEq a 'a' || foldEq a 'p') = true ∧
      foldEq b 'm' = true := by
  unfold matchAmPm at h
  split at h
  · rename_i a b rest
    split at h
    · rename_i hcond
      simp only [Bool.and_eq_true] at hcond
      simp only [Option.some.injEq, Prod.mk.injEq] at h
      exact ⟨a, b, h.1.symm, hcond.1, hcond.2⟩
    · exact absurd h (by simp)
  · exact absurd h (by simp)

/-- Characters folding onto `A` or `P` are not JS whitespace. -/
theorem amPm_head_not_space (x : Char)
    (h : (foldEq x 'a' || foldEq x 'p') = true) : jsSpace x = false := by
  rcases Bool.or_eq_true_iff.mp h with h1 | h1
  · exact foldEq_upper_not_space x 'a' h1 (by decide) (by decide)
  · exact foldEq_upper_not_space x 'p' h1 (by decide) (by decide)

/-- Characters folding onto `M` are not JS whitespace. -/
theorem foldM_not_space (x : Char) (h : foldEq x 'm' = true) :
    jsSpace x = false :=
  foldEq_upper_not_space x 'm' h (by decide) (by decide)

/-- Token-assembly lemma: any token assembled from a digit-and-colon
core, an optional two-digit `:minute` part and an optional am/pm suffix
has the claim's clock-token shape, and contains no whitespace. -/
theorem specClockToken_parts (d1 : Char) (dig minutes suf : List Char)
    (hd1 : decDigit d1 = true)
    (hdig : dig = [d1] ∨ ∃ d2, dig = [d1, d2] ∧ decDigit d2 = true)
    (hmin : minutes = [] ∨ ∃ m1 m2, minutes = [':', m1, m2] ∧
      decDigit m1 = true ∧ decDigit m2 = true)
    (hsuf : suf = [] ∨ ∃ a b, suf = [a, b] ∧
      (foldEq a 'a' || foldEq a 'p') = true ∧ foldEq b 'm' = true) :
    specClockToken ⟨dig ++ minutes ++ suf⟩ = true ∧
      ∀ c ∈ dig ++ minutes ++ suf, jsSpace c = false := by
  have colonNS : jsSpace ':' = false := by decide
  rcases hdig with rfl | ⟨d2, rfl, hd2⟩ <;>
    rcases hmin with rfl | ⟨m1, m2, rfl, hm1, hm2⟩ <;>
    rcases hsuf with rfl | ⟨a, b, rfl, ha, hb⟩ <;>
    refine ⟨by simp [specClockToken, hourThen, minuteTail, amPmOptEnd,
      toList_mk, hd1, *], ?_⟩ <;>
    (simp only [List.append_nil, List.nil_append, List.forall_mem_cons,
       List.forall_mem_append, and_true, true_and]
     repeat' apply And.intro
     all_goals
       first
       | exact decDigit_not_space _ hd1
       | exact decDigit_not_space _ ‹decDigit _ = true›
       | exact colonNS
       | exact amPm_head_not_space _ ‹_›
       | exact foldM_not_space _ ‹_›
       | (intro x hx; exact absurd hx (List.not_mem_nil x)))

/-- First-group assembly lemma: the `h:mm`/`hh:mm` core with an
optional am/pm suffix has the minute-required token shape and contains
no whitespace. -/
theorem startTokShape_parts (core suf : List Char)
    (hcore : (∃ d1 d2 m1 m2, core = [d1, d2, ':', m1, m2] ∧
        decDigit d1 = true ∧ decDigit d2 = true ∧ decDigit m1 = true ∧
        decDigit m2 = true) ∨
      (∃ d1 m1 m2, core = [d1, ':', m1, m2] ∧ decDigit d1 = true ∧
        decDigit m1 = true ∧ decDigit m2 = true))
    (hsuf : suf = [] ∨ ∃ a b, suf = [a, b] ∧
      (foldEq a 'a' || foldEq a 'p') = true ∧ foldEq b 'm' = true) :
    startTokShape ⟨core ++ suf⟩ = true ∧
      ∀ c ∈ core ++ suf, jsSpace c = false := by
  have colonNS : jsSpace ':' = false := by decide
  rcases hcore with ⟨d1, d2, m1, m2, rfl, h1, h2, h3, h4⟩ |
      ⟨d1, m1, m2, rfl, h1, h3, h4⟩ <;>
    rcases hsuf with rfl | ⟨a, b, rfl, ha, hb⟩ <;>
    refine ⟨by simp [startTokShape, hourThen, minuteTail, amPmOptEnd,
      toList_mk, *], ?_⟩ <;>
    (simp only [List.append_nil, List.nil_append, List.forall_mem_cons,
       List.forall_mem_append, and_true, true_and]
     repeat' apply And.intro
     all_goals
       first
       | exact decDigit_not_space _ ‹decDigit _ = true›
       | exact colonNS
       | exact amPm_head_not_space _ ‹_›
       | exact foldM_not_space _ ‹_›
       | (intro x hx; exact absurd hx (List.not_mem_nil x)))

theorem hourPart_cases (d1 : Char) (rest dig r1 : List Char)
    (h : hourPart d1 rest = (dig, r1)) :
    dig = [d1] ∨ ∃ d2, dig = [d1, d2] ∧ decDigit d2 = true := by
  unfold hourPart at h
  split at h
  · split at h
    · rename_i d2 r hd2
      injection h with h1 h2
      exact Or.inr ⟨d2, h1.symm, hd2⟩
    · injection h with h1 h2
      exact Or.inl h1.symm
  · injection h with h1 h2
    exact Or.inl h1.symm

theorem minutesPart_cases (r1 minutes r2 : List Char)
    (h : minutesPart r1 = (minutes, r2)) :
    minutes = [] ∨ ∃ m1 m2, minutes = [':', m1, m2] ∧
      decDigit m1 = true ∧ decDigit m2 = true := by
  unfold minutesPart at h
  split at h
  · split at h
    · rename_i c m1 m2 r hcond
      simp only [Bool.and_eq_true, decide_eq_true_eq] at hcond
      obtain ⟨⟨hc, hm1⟩, hm2⟩ := hcond
      subst hc
      injection h with h1 h2
      exact Or.inr ⟨m1, m2, h1.symm, hm1, hm2⟩
    · injection h with h1 h2
      exact Or.inl h1.symm
  · injection h with h1 h2
    exact Or.inl h1.symm

/-- Any second-group capture has the claim's clock-token shape and no
whitespace. -/
theorem matchEndToken_shape (cs g2 : List Char)
    (h : matchEndToken cs = some g2) :
    specClockToken ⟨g2⟩ = true ∧ ∀ c ∈ g2, jsSpace c = false := by
  unfold matchEndToken at h
  split at h
  · rename_i d1 rest
    split at h
    · rename_i hd1
      rcases hp : hourPart d1 rest with ⟨dig, r1⟩
      rw [hp] at h
      dsimp only at h
      rcases hm : minutesPart r1 with ⟨minutes, r2⟩
      rw [hm] at h
      dsimp only at h
      rcases ham : matchAmPm r2 with _ | ⟨suf, rr⟩ <;> rw [ham] at h
      · injection h with h
        subst h
        have := specClockToken_parts d1 dig minutes [] hd1
          (hourPart_cases d1 rest dig r1 hp)
          (minutesPart_cases r1 minutes r2 hm) (Or.inl rfl)
        simpa using this
      · injection h with h
        subst h
        exact specClockToken_parts d1 dig minutes suf hd1
          (hourPart_cases d1 rest dig r1 hp)
          (minutesPart_cases r1 minutes r2 hm)
          (Or.inr (by
            obtain ⟨a, b, h1, h2, h3⟩ := matchAmPm_cases r2 suf rr ham
            exact ⟨a, b, h1, h2, h3⟩))
    · exact absurd h (by simp)
  · exact absurd h (by simp)

/-- `matchDashThenEnd` keeps its first argument as the first capture and
produces its second capture through `matchEndToken`. -/
theorem matchDashThenEnd_parts (g r a b : List Char)
    (h : matchDashThenEnd g r = some (a, b)) :
    a = g ∧ ∃ t, matchEndToken t = some b := by
  unfold matchDashThenEnd at h
  split at h
  · rename_i d r2
    split at h
    · obtain ⟨g2, hg2, hpair⟩ := Option.map_eq_some'.mp h
      injection hpair with h1 h2
      exact ⟨h1.symm, ⟨_, h2 ▸ hg2⟩⟩
    · exact absurd h (by simp)
  · exact absurd h (by simp)

/-- Captures of one range-regex attempt: the first has the
minute-required shape, the second the claim's token shape, and neither
contains whitespace. -/
theorem matchRangeAt_shape (cs a b : List Char)
    (h : matchRangeAt cs = some (a, b)) :
    (startTokShape ⟨a⟩ = true ∧ ∀ c ∈ a, jsSpace c = false) ∧
      (specClockToken ⟨b⟩ = true ∧ ∀ c ∈ b, jsSpace c = false) := by
  unfold matchRangeAt at h
  obtain ⟨⟨g1, r1⟩, hhm, hf⟩ := Option.bind_eq_some.mp h
  have hcore := matchHourMin_cases cs g1 r1 hhm
  dsimp only at hf
  rcases ham : matchAmPm r1 with _ | ⟨suf, r2⟩ <;> rw [ham] at hf
  · simp only [Option.none_orElse] at hf
    obtain ⟨ha, t, ht⟩ := matchDashThenEnd_parts g1 r1 a b hf
    subst ha
    have h1 := startTokShape_parts a [] hcore (Or.inl rfl)
    have h2 := matchEndToken_shape t b ht
    simp only [List.append_nil] at h1
    exact ⟨h1, h2⟩
  · dsimp only at hf
    rcases hd1 : matchDashThenEnd (g1 ++ suf) r2 with _ | v <;>
      rw [hd1] at hf
    · simp only [Option.none_orElse] at hf
      obtain ⟨ha, t, ht⟩ := matchDashThenEnd_parts g1 r1 a b hf
      subst ha
      have h1 := startTokShape_parts a [] hcore (Or.inl rfl)
      have h2 := matchEndToken_shape t b ht
      simp only [List.append_nil] at h1
      exact ⟨h1, h2⟩
    · simp only [Option.some_orElse] at hf
      injection hf with hf
      subst hf
      obtain ⟨ha, t, ht⟩ := matchDashThenEnd_parts (g1 ++ suf) r2 a b hd1
      subst ha
      obtain ⟨x, y, hsuf, hx, hy⟩ := matchAmPm_cases r1 suf r2 ham
      have h1 := startTokShape_parts g1 suf hcore
        (Or.inr ⟨x, y, hsuf, hx, hy⟩)
      have h2 := matchEndToken_shape t b ht
      exact ⟨h1, h2⟩

/-- The leftmost range match inherits the per-attempt capture shapes. -/
theorem findRange_shape :
    ∀ (cs a b : List Char), findRange cs = some (a, b) →
      (startTokShape ⟨a⟩ = true ∧ ∀ c ∈ a, jsSpace c = false) ∧
        (specClockToken ⟨b⟩ = true ∧ ∀ c ∈ b, jsSpace c = false) := by
  intro cs
  induction cs with
  | nil => intro a b h; exact absurd h (by simp [findRange])
  | cons c cs ih =>
    intro a b h
    unfold findRange at h
    rcases hm : matchRangeAt (c :: cs) with _ | v <;> rw [hm] at h
    · simp only [Option.none_orElse] at h
      exact ih a b h
    · simp only [Option.some_orElse] at h
      injection h with h
      subst h
      exact matchRangeAt_shape (c :: cs) a b hm

/-- A single-time attempt produces a minute-required token without
whitespace. -/
theorem matchSingleAt_shape (cs a : List Char)
    (h : matchSingleAt cs = some a) :
    startTokShape ⟨a⟩ = true ∧ ∀ c ∈ a, jsSpace c = false := by
  unfold matchSingleAt at h
  obtain ⟨⟨g1, r1⟩, hhm, hf⟩ := Option.map_eq_some'.mp h
  have hcore := matchHourMin_cases cs g1 r1 hhm
  dsimp only at hf
  rcases ham : matchAmPm r1 with _ | ⟨suf, r2⟩ <;> rw [ham] at hf
  · subst hf
    have h1 := startTokShape_parts g1 [] hcore (Or.inl rfl)
    simpa using h1
  · subst hf
    obtain ⟨x, y, hsuf, hx, hy⟩ := matchAmPm_cases r1 suf r2 ham
    exact startTokShape_parts g1 suf hcore (Or.inr ⟨x, y, hsuf, hx, hy⟩)

/-- The leftmost single-time match inherits the shape. -/
theorem findSingle_shape :
    ∀ (cs a : List Char), findSingle cs = some a →
      startTokShape ⟨a⟩ = true ∧ ∀ c ∈ a, jsSpace c = false := by
  intro cs
  induction cs with
  | nil => intro a h; exact absurd h (by simp [findSingle])
  | cons c cs ih =>
    intro a h
    unfold findSingle at h
    rcases hm : matchSingleAt (c :: cs) with _ | v <;> rw [hm] at h
    · simp only [Option.none_orElse] at h
      exact ih a h
    · simp only [Option.some_orElse] at h
      injection h with h
      exact h ▸ matchSingleAt_shape (c :: cs) v hm

/-- Trimming a whitespace-free token is the identity. -/
theorem jsTrim_mk_eq (a : List Char) (h : ∀ c ∈ a, jsSpace c = false) :
    jsTrim ⟨a⟩ = (⟨a⟩ : String) := by
  unfold jsTrim
  rw [toList_mk, trimL_eq_of_nonspace a h]

/-- `hourThen` is monotone in its tail test. -/
theorem hourThen_mono (f g : List Char → Bool)
    (hfg : ∀ r, f r = true → g r = true) :
    ∀ cs, hourThen f cs = true → hourThen g cs = true := by
  intro cs h
  unfold hourThen at h ⊢
  rcases cs with _ | ⟨d1, rest⟩
  · simp at h
  · simp only [Bool.and_eq_true, Bool.or_eq_true] at h ⊢
    refine ⟨h.1, ?_⟩
    rcases h.2 with h2 | h2
    · rcases rest with _ | ⟨d2, r2⟩
      · simp at h2
      · simp only [Bool.and_eq_true] at h2
        exact Or.inl (by simp [h2.1, hfg r2 h2.2])
    · exact Or.inr (hfg rest h2)

/-- A minute-required token is in particular a clock token of the
claim's grammar. -/
theorem startTok_implies_spec (s : String) (h : startTokShape s = true) :
    specClockToken s = true :=
  hourThen_mono minuteTail (fun r => minuteTail r || amPmOptEnd r)
    (fun r hr => by simp [hr]) s.toList h

/-- C5 (amended): whenever the header interpreter produces a session,
the startTime has the shape the code actually demands of the first range
token — hour, *required* two-digit `:minute`, optional am/pm — and the
endTime has the claim's token shape (hour, optional `:minute`, optional
am/pm); when no dash range is found, a single minute-required token is
used for both fields. -/
theorem claim5_amended_first_token_requires_minutes (h : String)
    (t : TimeInfo) (hext : extractTimeInfo h = some t) :
    startTokShape t.startTime = true ∧
    specClockToken t.endTime = true ∧
    (findRange h.toList = none → t.startTime = t.endTime) := by
  unfold extractTimeInfo at hext
  split at hext
  · rename_i a b heq
    simp only [Option.some.injEq] at hext
    subst hext
    obtain ⟨⟨hsa, hna⟩, ⟨hsb, hnb⟩⟩ := findRange_shape h.toList a b heq
    refine ⟨?_, ?_, ?_⟩
    · show startTokShape (jsTrim ⟨a⟩) = true
      rw [jsTrim_mk_eq a hna]
      exact hsa
    · show specClockToken (jsTrim ⟨b⟩) = true
      rw [jsTrim_mk_eq b hnb]
      exact hsb
    · intro hnone
      rw [hnone] at heq
      exact absurd heq (by simp)
  · split at hext
    · rename_i hnr a heq
      simp only [Option.some.injEq] at hext
      subst hext
      obtain ⟨hsa, hna⟩ := findSingle_shape h.toList a heq
      have hssp : specClockToken (jsTrim ⟨a⟩) = true := by
        rw [jsTrim_mk_eq a hna]
        exact startTok_implies_spec ⟨a⟩ hsa
      refine ⟨?_, hssp, fun _ => rfl⟩
      show startTokShape (jsTrim ⟨a⟩) = true
      rw [jsTrim_mk_eq a hna]
      exact hsa
    · exact absurd hext (by simp)

/-- C5 witness: the amended statement at a concrete range header. -/
theorem claim5_witness :
    startTokShape (TimeInfo.startTime ⟨"lunch", "11:20am", "1pm"⟩) = true ∧
    specClockToken (TimeInfo.endTime ⟨"lunch", "11:20am", "1pm"⟩) = true ∧
    (findRange "Lunch 11:20am - 1pm".toList = none →
      TimeInfo.startTime ⟨"lunch", "11:20am", "1pm"⟩ =
        TimeInfo.endTime ⟨"lunch", "11:20am", "1pm"⟩) :=
  claim5_amended_first_token_requires_minutes "Lunch 11:20am - 1pm"
    ⟨"lunch", "11:20am", "1pm"⟩ (by decide)

/-! ### Length bounds for the sanitizer (claim C8) -/

theorem takeWhile_length_le (p : Char → Bool) :
    ∀ l : List Char, (l.takeWhile p).length ≤ l.length := by
  intro l
  induction l with
  | nil => simp
  | cons a l ih =>
    by_cases h : p a
    · simp only [List.takeWhile_cons, h, if_true, List.length_cons]
      omega
    · simp [List.takeWhile_cons, h]

theorem matchLit_length :
    ∀ (lit cs r : List Char), matchLit lit cs = some r →
      lit.length + r.length = cs.length := by
  intro lit
  induction lit with
  | nil =>
    intro cs r h
    simp only [matchLit, Option.some.injEq] at h
    subst h
    simp
  | cons p ps ih =>
    intro cs r h
    cases cs with
    | nil => exact absurd h (by simp [matchLit])
    | cons c cs =>
      simp only [matchLit] at h
      split at h
      · have := ih cs r h
        simp only [List.length_cons]
        omega
      · exact absurd h (by simp)

theorem mLit_le (lit : List Char) :
    ∀ cs n, mLit lit cs = some n → n ≤ cs.length := by
  intro cs n h
  unfold mLit at h
  obtain ⟨r, hr, hn⟩ := Option.map_eq_some'.mp h
  have := matchLit_length lit cs r hr
  omega

theorem mChar_le (p : Char → Bool) :
    ∀ cs n, mChar p cs = some n → n ≤ cs.length := by
  intro cs n h
  unfold mChar at h
  split at h
  · split at h
    · injection h with h
      subst h
      simp
    · exact absurd h (by simp)
  · exact absurd h (by simp)

theorem mRun_le (p : Char → Bool) (k : Nat) :
    ∀ cs n, mRun p k cs = some n → n ≤ cs.length := by
  intro cs n h
  unfold mRun at h
  dsimp only at h
  split at h
  · injection h with h
    subst h
    exact takeWhile_length_le p cs
  · exact absurd h (by simp)

theorem mRun_min (p : Char → Bool) (k : Nat) :
    ∀ cs n, mRun p k cs = some n → k ≤ n := by
  intro cs n h
  unfold mRun at h
  dsimp only at h
  split at h
  · injection h with h
    subst h
    assumption
  · exact absurd h (by simp)

theorem mSeq_le {a b : Matcher}
    (ha : ∀ cs n, a cs = some n → n ≤ cs.length)
    (hb : ∀ cs n, b cs = some n → n ≤ cs.length) :
    ∀ cs n, mSeq a b cs = some n → n ≤ cs.length := by
  intro cs n h
  unfold mSeq at h
  obtain ⟨n1, h1, h2⟩ := Option.bind_eq_some.mp h
  obtain ⟨n2, h3, h4⟩ := Option.map_eq_some'.mp h2
  have e1 := ha cs n1 h1
  have e2 := hb _ n2 h3
  rw [List.length_drop] at e2
  omega

theorem mSeq_min_left {a b : Matcher} (k : Nat)
    (ha : ∀ cs n, a cs = some n → k ≤ n) :
    ∀ cs n, mSeq a b cs = some n → k ≤ n := by
  intro cs n h
  unfold mSeq at h
  obtain ⟨n1, h1, h2⟩ := Option.bind_eq_some.mp h
  obtain ⟨n2, h3, h4⟩ := Option.map_eq_some'.mp h2
  have := ha cs n1 h1
  omega

theorem mSeq_min_right {a b : Matcher} (k : Nat)
    (hb : ∀ cs n, b cs = some n → k ≤ n) :
    ∀ cs n, mSeq a b cs = some n → k ≤ n := by
  intro cs n h
  unfold mSeq at h
  obtain ⟨n1, h1, h2⟩ := Option.bind_eq_some.mp h
  obtain ⟨n2, h3, h4⟩ := Option.map_eq_some'.mp h2
  have := hb _ n2 h3
  omega

theorem mLit_min (lit : List Char) :
    ∀ cs n, mLit lit cs = some n → lit.length ≤ n := by
  intro cs n h
  unfold mLit at h
  obtain ⟨r, hr, hn⟩ := Option.map_eq_some'.mp h
  omega

theorem mOpt_le {a : Matcher}
    (ha : ∀ cs n, a cs = some n → n ≤ cs.length) :
    ∀ cs n, mOpt a cs = some n → n ≤ cs.length := by
  intro cs n h
  unfold mOpt at h
  cases hA : a cs with
  | none =>
    rw [hA] at h
    simp only [Option.orElse] at h
    injection h with h
    subst h
    simp
  | some v =>
    rw [hA] at h
    simp only [Option.orElse] at h
    injection h with h
    subst h
    exact ha cs v hA

theorem wsW_le {core : Matcher}
    (hc : ∀ cs n, core cs = some n → n ≤ cs.length) :
    ∀ cs n, wsW core cs = some n → n ≤ cs.length :=
  mSeq_le (mRun_le jsSpace 0) (mSeq_le hc (mRun_le jsSpace 0))

theorem mWsCapEnd_le :
    ∀ cs n, mWsCapEnd cs = some n → n ≤ cs.length := by
  intro cs n h
  unfold mWsCapEnd at h
  dsimp only at h
  split at h
  · split at h
    · rename_i hdrop
      split at h
      · injection h with h
        subst h
        have hl : (cs.drop ((cs.takeWhile jsSpace).length)).length = 1 := by
          rw [hdrop]
          rfl
        rw [List.length_drop] at hl
        have := takeWhile_length_le jsSpace cs
        omega
      · exact absurd h (by simp)
    · exact absurd h (by simp)
  · exact absurd h (by simp)

theorem mBracketSlash_le :
    ∀ cs n, mBracketSlash cs = some n → n ≤ cs.length :=
  mSeq_le (mLit_le _) (mSeq_le (mOpt_le (mChar_le _))
    (mSeq_le (mOpt_le (mChar_le _))
      (mSeq_le (mOpt_le (mChar_le _)) (mLit_le _))))

theorem mBracketSyms_le :
    ∀ cs n, mBracketSyms cs = some n → n ≤ cs.length :=
  mSeq_le (mLit_le _) (mSeq_le (mRun_le _ _) (mLit_le _))

theorem mParenSyms_le :
    ∀ cs n, mParenSyms cs = some n → n ≤ cs.length :=
  mSeq_le (mLit_le _) (mSeq_le (mRun_le _ _) (mLit_le _))

theorem mParenDigit_le :
    ∀ cs n, mParenDigit cs = some n → n ≤ cs.length :=
  mSeq_le (mLit_le _) (mSeq_le (mChar_le _) (mLit_le _))

theorem mIsolatedCap_le :
    ∀ cs n, mIsolatedCap cs = some n → n ≤ cs.length :=
  mSeq_le (mRun_le _ _) (mSeq_le (mChar_le _) (mRun_le _ _))

theorem mIsolatedCap_min :
    ∀ cs n, mIsolatedCap cs = some n → 1 ≤ n :=
  mSeq_min_left 1 (mRun_min jsSpace 1)

/-- Every entry of the OCR replacement chain is sound: the match is at
least as long as the replacement and fits in the input. -/
theorem ocrChain_good : ∀ p ∈ ocrChain, MatcherGood p := by
  intro p hp
  have good0 : ∀ (m : Matcher),
      (∀ cs n, m cs = some n → n ≤ cs.length) → MatcherGood (m, []) :=
    fun m hm cs n h => ⟨Nat.zero_le n, hm cs n h⟩
  have good1 : ∀ (m : Matcher) (r : List Char),
      (∀ cs n, m cs = some n → n ≤ cs.length) →
      (∀ cs n, m cs = some n → r.length ≤ n) → MatcherGood (m, r) :=
    fun m r hm hr cs n h => ⟨hr cs n h, hm cs n h⟩
  fin_cases hp <;>
    first
    | exact good0 _ (wsW_le mBracketSlash_le)
    | exact good0 _ (wsW_le mBracketSyms_le)
    | exact good0 _ (wsW_le mParenSyms_le)
    | exact good0 _ (wsW_le mParenDigit_le)
    | exact good0 _ (wsW_le (mLit_le _))
    | exact good0 _ (wsW_le (mRun_le _ _))
    | exact good0 _ (wsW_le (mChar_le _))
    | exact good0 _ mWsCapEnd_le
    | exact good0 _ (mChar_le _)
    | exact good1 _ _ mIsolatedCap_le
        (fun cs n h => mIsolatedCap_min cs n h)
    | exact good1 _ _
        (mSeq_le (mRun_le _ _) (mSeq_le (mLit_le _)
          (mSeq_le (mRun_le _ _) (mLit_le _))))
        (mSeq_min_right 1 (mSeq_min_left 1 (mLit_min [','])))
    | exact good1 _ _ (mRun_le _ _)
        (fun cs n h => by
          have := mRun_min jsSpace 2 cs n h
          simp only [List.length_cons, List.length_nil]
          omega)

/-- A sound replacement stage never lengthens the text. -/
theorem replaceMAux_length (m : Matcher) (rep : List Char)
    (hg : MatcherGood (m, rep)) :
    ∀ (fuel : Nat) (cs : List Char),
      (replaceMAux m rep fuel cs).length ≤ cs.length := by
  intro fuel
  induction fuel with
  | zero => intro cs; cases cs <;> simp [replaceMAux]
  | succ fuel ih =>
    intro cs
    cases cs with
    | nil => simp [replaceMAux]
    | cons c cs =>
      unfold replaceMAux
      split
      · rename_i n heq
        obtain ⟨h1, h2⟩ := hg (c :: cs) (n + 1) heq
        have h3 := ih (cs.drop n)
        simp only [List.length_append, List.length_drop,
          List.length_cons] at h1 h2 h3 ⊢
        omega
      · simp only [List.length_cons]
        have := ih cs
        omega

theorem replaceM_length (m : Matcher) (rep : List Char)
    (hg : MatcherGood (m, rep)) (cs : List Char) :
    (replaceM m rep cs).length ≤ cs.length :=
  replaceMAux_length m rep hg cs.length cs

/-- The whole OCR chain never lengthens the text. -/
theorem foldl_ocrStep_length :
    ∀ (l : List (Matcher × List Char)), (∀ p ∈ l, MatcherGood p) →
      ∀ cs, (l.foldl ocrStep cs).length ≤ cs.length := by
  intro l
  induction l with
  | nil => intro _ cs; simp
  | cons p l ih =>
    intro hl cs
    simp only [List.foldl_cons]
    calc (l.foldl ocrStep (ocrStep cs p)).length
        ≤ (ocrStep cs p).length :=
          ih (fun q hq => hl q (by simp [hq])) _
      _ ≤ cs.length := replaceM_length p.1 p.2 (hl p (by simp)) cs

theorem dropFromFirst_length_le (f : List Char → Bool) :
    ∀ cs, (dropFromFirst f cs).length ≤ cs.length := by
  intro cs
  induction cs with
  | nil => simp [dropFromFirst]
  | cons c cs ih =>
    unfold dropFromFirst
    split
    · simp
    · simp only [List.length_cons]
      omega

theorem dropWhile_length_le (p : Char → Bool) :
    ∀ l : List Char, (l.dropWhile p).length ≤ l.length := by
  intro l
  induction l with
  | nil => simp
  | cons a l ih =>
    by_cases h : p a
    · rw [List.dropWhile_cons_of_pos h]
      simp only [List.length_cons]
      omega
    · rw [List.dropWhile_cons_of_neg (by simp [h])]

theorem trimL_length_le (cs : List Char) : (trimL cs).length ≤ cs.length := by
  unfold trimL
  rw [List.length_reverse]
  calc ((cs.dropWhile jsSpace).reverse.dropWhile jsSpace).length
      ≤ (cs.dropWhile jsSpace).reverse.length := dropWhile_length_le jsSpace _
    _ = (cs.dropWhile jsSpace).length := List.length_reverse _
    _ ≤ cs.length := dropWhile_length_le jsSpace cs

theorem jsTrim_mk_length (l : List Char) :
    (jsTrim ⟨l⟩).length = (trimL l).length := rfl

theorem toList_length (s : String) : s.toList.length = s.length := rfl

theorem removeNoticeSection_length_le (s : String) :
    (removeNoticeSection s).length ≤ s.length := by
  unfold removeNoticeSection
  split
  · rw [jsTrim_mk_length]
    calc (trimL (s.toList.take _)).length
        ≤ (s.toList.take _).length := trimL_length_le _
      _ ≤ s.toList.length := by rw [List.length_take]; omega
      _ = s.length := rfl
  · exact le_refl _

theorem removeOcrArtifacts_length_le (s : String) :
    (removeOcrArtifacts s).length ≤ s.length := by
  simp only [removeOcrArtifacts]
  rw [jsTrim_mk_length]
  exact le_trans (trimL_length_le _)
    (le_trans (dropFromFirst_length_le _ _)
      (foldl_ocrStep_length ocrChain ocrChain_good s.toList))

/-- C8 (amended, part 1): the item sanitizer never lengthens its input.
-/
theorem cleanFoodItem_length_le (s : String) :
    (cleanFoodItem s).length ≤ s.length := by
  have hnotice := removeNoticeSection_length_le s
  have hocr := removeOcrArtifacts_length_le (removeNoticeSection s)
  have hlen : (removeOcrArtifacts (removeNoticeSection s)).toList.length ≤
      s.length := by
    rw [toList_length]
    exact le_trans hocr hnotice
  have chain : ∀ (f : List Char → Bool) (l : List Char),
      (jsTrim ⟨dropFromFirst f l⟩).length ≤ l.length := by
    intro f l
    rw [jsTrim_mk_length]
    exact le_trans (trimL_length_le _) (dropFromFirst_length_le f l)
  simp only [cleanFoodItem]
  split
  · rename_i c rest heq
    split
    · refine le_trans (chain _ _) (le_trans (dropWhile_length_le jsSpace rest) ?_)
      rw [heq] at hlen
      simp only [List.length_cons] at hlen
      omega
    · exact le_trans (chain _ _) hlen
  · exact le_trans (chain _ _) hlen

/-- C8 (amended): the sanitizer is not idempotent (see the
counterexample), but a second application can only delete further:
re-sanitizing never lengthens the already-clean string, and sanitizing
never lengthens the input. -/
theorem claim8_amended_second_pass_never_grows (s : String) :
    (cleanFoodItem (cleanFoodItem s)).length ≤ (cleanFoodItem s).length ∧
    (cleanFoodItem s).length ≤ s.length :=
  ⟨cleanFoodItem_length_le (cleanFoodItem s), cleanFoodItem_length_le s⟩

/-- C6 (amended): before artifact removal the item sanitizer checks the
line against its *own, narrower* list of seven notice patterns — the
Notice variants, the salad-bar persistence sentence, the symbols legend,
a line-final `Salad Bar`, the mixed-greens legend and the punctuated
dietary key — truncating to the trimmed substring before the first
matching pattern, and leaves the line whole when none of the seven
matches; the extra block-level boundary patterns (a standalone
`Deli Bar`, `Diced Cucumbers`, …) are not part of the sanitizer's
check, as the last conjuncts show on concrete lines. -/
theorem claim6_amended_sanitizer_truncates_on_own_list :
    (∀ (s : String) (i : Nat), noticeStartIdx s.toList = some i →
      removeNoticeSection s = jsTrim ⟨s.toList.take i⟩) ∧
    (∀ s : String, noticeStartIdx s.toList = none →
      removeNoticeSection s = s) ∧
    removeNoticeSection "Beef Stew Notice: allergens" = "Beef Stew" ∧
    removeNoticeSection "Deli Bar" = "Deli Bar" ∧
    removeNoticeSection "Tuna Melt Diced Cucumbers" =
      "Tuna Melt Diced Cucumbers" := by
  refine ⟨?_, ?_, by decide, by decide, by decide⟩
  · intro s i h
    unfold removeNoticeSection
    rw [h]
  · intro s h
    unfold removeNoticeSection
    rw [h]

/-- C6 witness: the amended statement applied at a concrete mid-line
notice (pattern index 10, the start of `Notice: allergens`). -/
theorem claim6_witness :
    removeNoticeSection "Beef Stew Notice: allergens" =
      jsTrim ⟨"Beef Stew Notice: allergens".toList.take 10⟩ :=
  claim6_amended_sanitizer_truncates_on_own_list.1
    "Beef Stew Notice: allergens" 10 (by decide)

end MenuParser
